import Mathlib

/-!
Shallow embedding of the stock watch-list dashboard (`app1.py`): flat-file
watch-list persistence (`load_tracked_stocks` / `save_tracked_stocks`), the
per-symbol fetch loop (`get_timeframe_data`), the change-metric computation
(`calculate_changes`), the ranking and manual partitioning done in `main`,
and the add-stock / remove-confirmation session flows.

Strings are modelled as lists of characters so that the line and field
splitting of the persistence layer is directly inspectable; prices are
rationals; a raised Python exception is modelled by `Option.none`; the
non-finite float produced by dividing by a zero start price is a dedicated
constructor, since rationals cannot represent it.
-/

namespace StockDash

/-- Character-list strings: the persistence layer splits on single
characters, which is awkward over `String` but direct over `List Char`. -/
abbrev Str := List Char

/-- The line separator appended to every stored record. -/
def NL : Char := '\n'

/-- The field separator of the `symbol,name` records. -/
def COMMA : Char := ','

/-- The ASCII whitespace characters removed by Python `str.strip()`. -/
def isSpc (c : Char) : Bool :=
  c = ' ' || c = '\t' || c = '\n' || c = '\r' || c = '\x0b' || c = '\x0c'

/-- Python `str.strip()`: remove leading and trailing whitespace. -/
def strip (s : Str) : Str :=
  ((s.dropWhile isSpc).reverse.dropWhile isSpc).reverse

/-- The lines seen by iterating the open file (with the trailing newline of
each line dropped, which the subsequent strip would remove anyway): split
the content on newlines; a trailing newline does not open a final empty
line. -/
def fileLines (content : Str) : List Str :=
  let fs := content.splitOn NL
  if fs.getLast? = some [] then fs.dropLast else fs

/-- One line parsed as in the load comprehension (strip, then split on
commas, then index fields 0 and 1): a line without a comma has a
single field, so indexing field `[1]` raises `IndexError` (`none`); extra
fields beyond the second are dropped. -/
def parseLine (line : Str) : Option (Str × Str) :=
  match (strip line).splitOn COMMA with
  | f0 :: f1 :: _ => some (f0, f1)
  | _ => none

/-- Python `dict` assignment `m[k] = v`: overwrite in place when the key is
present (keeping its original position), otherwise append at the end. -/
def dictInsert {α : Type} (m : List (Str × α)) (k : Str) (v : α) : List (Str × α) :=
  if m.any (fun e => e.1 == k) then
    m.map (fun e => if e.1 == k then (k, v) else e)
  else m ++ [(k, v)]

/-- Python `dict` read `m[k]` / `key in m` support. -/
def dictGet {α : Type} (m : List (Str × α)) (k : Str) : Option α :=
  (m.find? (fun e => e.1 == k)).map (fun e => e.2)

/-- Python `del m[k]` once the key is known present. -/
def dictErase {α : Type} (m : List (Str × α)) (k : Str) : List (Str × α) :=
  m.filter (fun e => !(e.1 == k))

/-- The dict comprehension of `load_tracked_stocks`, one line at a time; a
malformed line propagates its `IndexError`. -/
def loadLines : List Str → List (Str × Str) → Option (List (Str × Str))
  | [], m => some m
  | l :: ls, m =>
    match parseLine l with
    | none => none
    | some kv => loadLines ls (dictInsert m kv.1 kv.2)

/-- Parse the full content of `tracked_stocks.txt`. -/
def load_content (content : Str) : Option (List (Str × Str)) :=
  loadLines (fileLines content) []

/-- `load_tracked_stocks`: `none` for the argument models a missing
`tracked_stocks.txt` (that branch returns the empty dict); the outer
`none` models a raised exception while parsing an existing file. -/
def load_tracked_stocks (file : Option Str) : Option (List (Str × Str)) :=
  match file with
  | none => some []
  | some content => load_content content

/-- `save_tracked_stocks`: write the record symbol, comma, name, newline
for every entry. -/
def save_tracked_stocks (stocks : List (Str × Str)) : Str :=
  stocks.flatMap (fun e => e.1 ++ COMMA :: e.2 ++ [NL])

/-- The content of a line-structured file: each line followed by `"\n"`. -/
def encodeLines (ls : List Str) : Str :=
  ls.flatMap (fun l => l ++ [NL])

/-- The two Y-axis radio choices: Dollar Value / Percentage Change. -/
inductive YAxis
  | dollar
  | percent
deriving DecidableEq

/-- A per-symbol change value: a finite rational, or the non-finite float
(`inf`/`nan`) produced when the percent formula divides by a zero start
price, which has no rational representation. -/
inductive ChangeVal
  | val (q : ℚ)
  | nonfinite
deriving DecidableEq

/-- One iteration of the loop in `calculate_changes`: `iloc[0]`/`iloc[-1]`
on an empty column raise `IndexError` (`none`); otherwise the dollar or
percent formula, the latter non-finite when the start price is zero. -/
def calculate_change (prices : List ℚ) (y : YAxis) : Option ChangeVal :=
  match prices.head?, prices.getLast? with
  | some s, some e =>
    match y with
    | .dollar => some (.val (e - s))
    | .percent => if s = 0 then some .nonfinite else some (.val ((e - s) / s * 100))
  | _, _ => none

/-- The column loop of `calculate_changes`, accumulating `changes[column]`. -/
def calcLoop (y : YAxis) : List (Str × List ℚ) → List (Str × ChangeVal) →
    Option (List (Str × ChangeVal))
  | [], acc => some acc
  | col :: cols, acc =>
    match calculate_change col.2 y with
    | none => none
    | some c => calcLoop y cols (dictInsert acc col.1 c)

/-- `calculate_changes(df, y_axis)` over a frame given as its columns. -/
def calculate_changes (df : List (Str × List ℚ)) (y : YAxis) :
    Option (List (Str × ChangeVal)) :=
  calcLoop y df []

/-- The symbol loop of `get_timeframe_data`, accumulating `stock_data`. -/
def fetchLoop (fetch : Str → Option (List ℚ)) : List Str → List (Str × List ℚ) →
    Option (List (Str × List ℚ))
  | [], acc => some acc
  | s :: ss, acc =>
    match fetch s with
    | none => none
    | some prices => fetchLoop fetch ss (dictInsert acc s prices)

/-- `get_timeframe_data`: one `yf.Ticker(...).history` call per symbol, with
no per-symbol exception handling, so a raised fetch (`none`) aborts the
whole loop and no frame is produced. -/
def get_timeframe_data (fetch : Str → Option (List ℚ)) (symbols : List Str) :
    Option (List (Str × List ℚ)) :=
  fetchLoop fetch symbols []

/-- The Top Gainers selection: sort the changes mapping by value in reverse
order and keep the first ten symbols.  The Python sort is stable and the
reverse flag reverses each comparison while keeping ties in insertion
order, which is exactly `mergeSort` with the reversed `le`. -/
def rank_gainers (changes : List (Str × ℚ)) : List Str :=
  ((changes.mergeSort (fun a b => decide (b.2 ≤ a.2))).map (fun e => e.1)).take 10

/-- The Top Losers selection: the same sort in ascending order. -/
def rank_losers (changes : List (Str × ℚ)) : List Str :=
  ((changes.mergeSort (fun a b => decide (a.2 ≤ b.2))).map (fun e => e.1)).take 10

/-- View a changes mapping as finite rationals; `none` when some value is
the non-finite artefact, whose ordering under the Python float sort is a
floating-point matter outside this rational model. -/
def changesToRat : List (Str × ChangeVal) → Option (List (Str × ℚ))
  | [] => some []
  | (s, .val q) :: rest => (changesToRat rest).map (fun r => (s, q) :: r)
  | (_, .nonfinite) :: _ => none

/-- The `Top Gainers` branch of `main`: compute the changes for the active
Y-axis mode and rank the symbols on them. -/
def top_gainers (df : List (Str × List ℚ)) (y : YAxis) : Option (List Str) := do
  let cs ← calculate_changes df y
  let fs ← changesToRat cs
  pure (rank_gainers fs)

/-- The `Top Losers` branch of `main`. -/
def top_losers (df : List (Str × List ℚ)) (y : YAxis) : Option (List Str) := do
  let cs ← calculate_changes df y
  let fs ← changesToRat cs
  pure (rank_losers fs)

/-- One list comprehension `[stock for stock in selected_stocks if p (changes[stock])]`;
`changes[stock]` raises `KeyError` (`none`) when the symbol is absent. -/
def filterSelected (changes : List (Str × ℚ)) (p : ℚ → Bool) :
    List Str → Option (List Str)
  | [] => some []
  | s :: ss =>
    match dictGet changes s with
    | none => none
    | some q => (filterSelected changes p ss).map (fun r => if p q then s :: r else r)

/-- The `Manual Selection` branch of `main`: `changes[stock] > 0` goes to
`gainer_stocks`, `changes[stock] <= 0` to `loser_stocks`. -/
def partition_manual (selected : List Str) (changes : List (Str × ℚ)) :
    Option (List Str × List Str) := do
  let g ← filterSelected changes (fun q => decide (0 < q)) selected
  let l ← filterSelected changes (fun q => decide (q ≤ 0)) selected
  pure (g, l)

/-- The session state of the app: the tracked mapping, the two removal
fields, and the current content of `tracked_stocks.txt` (`none` when the
file does not exist yet). -/
structure AppState where
  tech_stocks : List (Str × Str)
  remove_symbol : Option Str
  show_confirmation : Bool
  persisted : Option Str
deriving DecidableEq

/-- Clicking `Remove` on the row of symbol `s`. -/
def request_removal (st : AppState) (s : Str) : AppState :=
  { st with remove_symbol := some s, show_confirmation := true }

/-- Clicking `No` in the confirmation dialog (only rendered while
`show_confirmation` is set). -/
def cancel_removal (st : AppState) : AppState :=
  if st.show_confirmation then { st with show_confirmation := false } else st

/-- Clicking `Yes`: `del st.session_state.tech_stocks[symbol]` followed by a
full rewrite of the file; `del` with a missing key (or a `None` pending
symbol) raises `KeyError`.  The dialog is only rendered while
`show_confirmation` is set, so otherwise the click is impossible and the
state is unchanged. -/
def confirm_removal (st : AppState) : Option AppState :=
  if st.show_confirmation then
    match st.remove_symbol with
    | none => none
    | some sym =>
      if st.tech_stocks.any (fun e => e.1 == sym) then
        let stocks := dictErase st.tech_stocks sym
        some { st with
          tech_stocks := stocks
          show_confirmation := false
          persisted := some (save_tracked_stocks stocks) }
      else none
  else some st

/-- Outcome message of the `Add Stock` button handler. -/
inductive AddOutcome
  | added
  | duplicate
  | failed
  | noInput
deriving DecidableEq

/-- Python `str.upper()` on the entered symbol. -/
def toUpper (s : Str) : Str := s.map Char.toUpper

/-- How the file rewrite inside `save_tracked_stocks` ends when the add
handler calls it.  The file is opened in truncating write mode — rewritten
in place, with no temporary file and atomic replace — so an exception
raised once the file is open leaves only a prefix (possibly empty) of the
intended content on disk; only an exception from the open itself leaves
the previous content. -/
inductive WriteResult
  | ok
  | failBeforeOpen
  | failAfter (n : Nat)
deriving DecidableEq

/-- The on-disk content after attempting to rewrite the store file with
the given records, for each way the write can end. -/
def writeEffect (old : Option Str) (stocks : List (Str × Str)) : WriteResult → Option Str
  | .ok => some (save_tracked_stocks stocks)
  | .failBeforeOpen => old
  | .failAfter n => some ((save_tracked_stocks stocks).take n)

/-- The `Add Stock` button handler.  `info` models
the metadata lookup of the long display name (`none`: the lookup raised);
`w` is how the file rewrite ends.  The dict assignment happens before the
rewrite, and the `except` block only prints a message, so on a failed
write the in-memory mapping keeps the new entry while the file holds
whatever `writeEffect` left. -/
def add_stock (st : AppState) (new_stock : Str) (info : Str → Option Str)
    (w : WriteResult) : AppState × AddOutcome :=
  if new_stock.isEmpty then (st, .noInput)
  else
    let up := toUpper new_stock
    if st.tech_stocks.any (fun e => e.1 == up) then (st, .duplicate)
    else
      match info up with
      | none => (st, .failed)
      | some name =>
        let stocks := dictInsert st.tech_stocks up name
        let st2 := { st with tech_stocks := stocks
                             persisted := writeEffect st.persisted stocks w }
        match w with
        | .ok => (st2, .added)
        | _ => (st2, .failed)

/-! ### Splitting and stripping lemmas -/

theorem splitOn_sep {c : Char} {l : Str} (h : c ∉ l) (rest : Str) :
    (l ++ c :: rest).splitOn c = l :: rest.splitOn c := by
  unfold List.splitOn
  apply List.splitOnP_first
  · intro x hx hb
    have hxc : x = c := by simpa using hb
    exact h (hxc ▸ hx)
  · simp

theorem splitOn_no_sep {c : Char} {l : Str} (h : c ∉ l) : l.splitOn c = [l] := by
  unfold List.splitOn
  apply List.splitOnP_eq_single
  intro x hx hb
  have hxc : x = c := by simpa using hb
  exact h (hxc ▸ hx)

theorem splitOn_ne_nil (c : Char) (l : Str) : l.splitOn c ≠ [] := by
  simpa [List.splitOn] using List.splitOnP_ne_nil (fun x => x == c) l

theorem strip_eq_self {l : Str} (h1 : ∀ c ∈ l.head?, isSpc c = false)
    (h2 : ∀ c ∈ l.getLast?, isSpc c = false) : strip l = l := by
  unfold strip
  have hd : l.dropWhile isSpc = l := by
    cases l with
    | nil => rfl
    | cons a t =>
      rw [List.dropWhile_cons_of_neg]
      simp [h1 a (by simp)]
  rw [hd]
  have hr : l.reverse.dropWhile isSpc = l.reverse := by
    cases hrev : l.reverse with
    | nil => rfl
    | cons a t =>
      rw [List.dropWhile_cons_of_neg]
      have hla : l.getLast? = some a := by
        rw [List.getLast?_eq_head?_reverse, hrev]
        rfl
      simp [h2 a (by simp [hla])]
  rw [hr, List.reverse_reverse]

/-! ### File-line structure lemmas -/

theorem encodeLines_cons (l : Str) (ls : List Str) :
    encodeLines (l :: ls) = l ++ NL :: encodeLines ls := by
  simp [encodeLines]

theorem splitOn_encodeLines {ls : List Str} (h : ∀ l ∈ ls, NL ∉ l) :
    (encodeLines ls).splitOn NL = ls ++ [[]] := by
  induction ls with
  | nil => simp [encodeLines]
  | cons l ls ih =>
    rw [encodeLines_cons, splitOn_sep (h l (by simp))]
    rw [ih (fun x hx => h x (by simp [hx]))]
    simp

theorem fileLines_encodeLines {ls : List Str} (h : ∀ l ∈ ls, NL ∉ l) :
    fileLines (encodeLines ls) = ls := by
  unfold fileLines
  rw [splitOn_encodeLines h]
  simp

/-! ### Record-line parsing lemmas -/

theorem parseLine_record {k v : Str} (hk : COMMA ∉ k)
    (hs : strip (k ++ COMMA :: v) = k ++ COMMA :: v) (hv : COMMA ∉ v) :
    parseLine (k ++ COMMA :: v) = some (k, v) := by
  unfold parseLine
  rw [hs, splitOn_sep hk, splitOn_no_sep hv]

theorem parseLine_key {k v : Str} (hk : COMMA ∉ k)
    (hs : strip (k ++ COMMA :: v) = k ++ COMMA :: v) :
    ∃ w, parseLine (k ++ COMMA :: v) = some (k, w) := by
  unfold parseLine
  rw [hs, splitOn_sep hk]
  cases hsp : v.splitOn COMMA with
  | nil => exact absurd hsp (splitOn_ne_nil _ _)
  | cons w ws => exact ⟨w, rfl⟩

/-- Strip-invariance of a record line follows from its symbol not starting,
and its name not ending, with whitespace (a comma is not whitespace). -/
theorem strip_record {k v : Str} (h1 : ∀ c ∈ k.head?, isSpc c = false)
    (h2 : ∀ c ∈ v.getLast?, isSpc c = false) :
    strip (k ++ COMMA :: v) = k ++ COMMA :: v := by
  apply strip_eq_self
  · intro c hc
    cases k with
    | nil =>
      simp at hc
      subst hc
      decide
    | cons a t =>
      simp at hc
      exact hc ▸ h1 a (by simp)
  · intro c hc
    rw [List.getLast?_append] at hc
    cases v with
    | nil =>
      simp at hc
      subst hc
      decide
    | cons x xs =>
      rw [List.getLast?_cons_cons] at hc
      cases hv2 : (x :: xs).getLast? with
      | none => simp at hv2
      | some y =>
        rw [hv2] at hc
        simp at hc
        exact hc ▸ h2 y (by simp [hv2])

/-! ### Dict and load-loop lemmas -/

theorem dictInsert_fresh {α : Type} {m : List (Str × α)} {k : Str} {v : α}
    (h : ∀ e ∈ m, e.1 ≠ k) : dictInsert m k v = m ++ [(k, v)] := by
  have : m.any (fun e => e.1 == k) = false := by
    simp only [List.any_eq_false]
    intro e he
    simp [h e he]
  simp [dictInsert, this]

theorem loadLines_records : ∀ (entries acc : List (Str × Str)),
    (∀ e ∈ entries, parseLine (e.1 ++ COMMA :: e.2) = some e) →
    (∀ e ∈ entries, ∀ a ∈ acc, a.1 ≠ e.1) →
    (entries.map (fun e => e.1)).Nodup →
    loadLines (entries.map (fun e => e.1 ++ COMMA :: e.2)) acc = some (acc ++ entries)
  | [], acc, _, _, _ => by simp [loadLines]
  | e :: es, acc, hp, hf, hn => by
    have hn2 : e.1 ∉ es.map (fun x => x.1) ∧ (es.map (fun x => x.1)).Nodup := by
      rw [List.map_cons, List.nodup_cons] at hn
      exact hn
    simp only [List.map_cons, loadLines]
    rw [hp e (by simp)]
    show loadLines (es.map (fun e => e.1 ++ COMMA :: e.2)) (dictInsert acc e.1 e.2) =
      some (acc ++ e :: es)
    rw [dictInsert_fresh (fun a ha => hf e (by simp) a ha)]
    have hrec := loadLines_records es (acc ++ [(e.1, e.2)])
      (fun x hx => hp x (by simp [hx]))
      (by
        intro x hx a ha
        rcases List.mem_append.mp ha with h1 | h1
        · exact hf x (by simp [hx]) a h1
        · have ha2 : a = (e.1, e.2) := by simpa using h1
          rw [ha2]
          intro hax
          have hx1 : x.1 ∈ es.map (fun y => y.1) := List.mem_map.mpr ⟨x, hx, rfl⟩
          rw [← hax] at hx1
          exact hn2.1 hx1)
      hn2.2
    rw [hrec]
    simp

/-! ### The save/load round-trip core -/

theorem save_eq_encode (m : List (Str × Str)) :
    save_tracked_stocks m = encodeLines (m.map (fun e => e.1 ++ COMMA :: e.2)) := by
  simp [save_tracked_stocks, encodeLines, List.flatMap_map, Function.comp]

theorem record_line_NL_free {k v : Str} (hk : NL ∉ k) (hv : NL ∉ v) :
    NL ∉ k ++ COMMA :: v := by
  intro hmem
  rcases List.mem_append.mp hmem with h | h
  · exact hk h
  · rcases List.mem_cons.mp h with h | h
    · exact absurd h (by simp [NL, COMMA])
    · exact hv h

theorem load_save (m : List (Str × Str))
    (hkeys : (m.map (fun e => e.1)).Nodup)
    (hfree : ∀ e ∈ m, COMMA ∉ e.1 ∧ COMMA ∉ e.2 ∧ NL ∉ e.1 ∧ NL ∉ e.2)
    (hstrip : ∀ e ∈ m, strip (e.1 ++ COMMA :: e.2) = e.1 ++ COMMA :: e.2) :
    load_content (save_tracked_stocks m) = some m := by
  rw [save_eq_encode]
  unfold load_content
  rw [fileLines_encodeLines (by
    intro l hl
    obtain ⟨e, he, rfl⟩ := List.mem_map.mp hl
    exact record_line_NL_free (hfree e he).2.2.1 (hfree e he).2.2.2)]
  have := loadLines_records m []
    (fun e he => parseLine_record (hfree e he).1 (hstrip e he) (hfree e he).2.1)
    (by simp) hkeys
  simpa using this

/-! ### Performance-engine loop lemmas -/

theorem calcLoop_keys (y : YAxis) : ∀ (df : List (Str × List ℚ)) (acc cs : List (Str × ChangeVal)),
    (∀ s ∈ df.map (fun e => e.1), ∀ a ∈ acc, a.1 ≠ s) →
    (df.map (fun e => e.1)).Nodup →
    calcLoop y df acc = some cs →
    cs.map (fun e => e.1) = acc.map (fun e => e.1) ++ df.map (fun e => e.1)
  | [], acc, cs, _, _, heq => by
    simp only [calcLoop] at heq
    cases heq
    simp
  | col :: cols, acc, cs, hdisj, hnodup, heq => by
    have hn2 : col.1 ∉ cols.map (fun x => x.1) ∧ (cols.map (fun x => x.1)).Nodup := by
      rw [List.map_cons, List.nodup_cons] at hnodup
      exact hnodup
    cases hc : calculate_change col.2 y with
    | none => rw [calcLoop, hc] at heq; cases heq
    | some c =>
      rw [calcLoop, hc] at heq
      have heq2 : calcLoop y cols (dictInsert acc col.1 c) = some cs := heq
      rw [dictInsert_fresh (fun a ha => hdisj col.1 (by simp) a ha)] at heq2
      have hrec := calcLoop_keys y cols (acc ++ [(col.1, c)]) cs
        (by
          intro s hs a ha
          rcases List.mem_append.mp ha with h1 | h1
          · exact hdisj s (by simp [hs]) a h1
          · have ha2 : a = (col.1, c) := by simpa using h1
            rw [ha2]
            intro hax
            exact hn2.1 (hax ▸ hs))
        hn2.2 heq2
      simp only [hrec, List.map_append, List.map_cons]
      simp
  termination_by df => df.length

theorem fetchLoop_isSome (fetch : Str → Option (List ℚ)) :
    ∀ (symbols : List Str) (acc : List (Str × List ℚ)),
    (fetchLoop fetch symbols acc).isSome ↔ ∀ s ∈ symbols, (fetch s).isSome
  | [], acc => by simp [fetchLoop]
  | s :: ss, acc => by
    cases hf : fetch s with
    | none =>
      rw [fetchLoop, hf]
      simp [hf]
    | some prices =>
      rw [fetchLoop, hf]
      rw [fetchLoop_isSome fetch ss (dictInsert acc s prices)]
      constructor
      · intro h x hx
        rcases List.mem_cons.mp hx with rfl | hx2
        · simp [hf]
        · exact h x hx2
      · intro h x hx
        exact h x (by simp [hx])

theorem filterSelected_eq (changes : List (Str × ℚ)) (p : ℚ → Bool) :
    ∀ selected : List Str, (∀ s ∈ selected, (dictGet changes s).isSome) →
    filterSelected changes p selected =
      some (selected.filter (fun s => (dictGet changes s).any p))
  | [], _ => by simp [filterSelected]
  | s :: ss, h => by
    cases hg : dictGet changes s with
    | none => exact absurd (h s (by simp)) (by simp [hg])
    | some q =>
      rw [filterSelected, hg]
      rw [filterSelected_eq changes p ss (fun x hx => h x (by simp [hx]))]
      simp only [Option.map_some, List.filter_cons, hg, Option.any_some]
      cases hq : p q <;> simp [hq]

/-! ### Sorting helper lemmas (for the stable Python sort) -/

theorem desc_trans : ∀ a b c : Str × ℚ,
    (fun a b : Str × ℚ => decide (b.2 ≤ a.2)) a b →
    (fun a b : Str × ℚ => decide (b.2 ≤ a.2)) b c →
    (fun a b : Str × ℚ => decide (b.2 ≤ a.2)) a c := by
  intro a b c hab hbc
  simp only [decide_eq_true_eq] at hab hbc ⊢
  exact le_trans hbc hab

theorem desc_total : ∀ a b : Str × ℚ,
    ((fun a b : Str × ℚ => decide (b.2 ≤ a.2)) a b ||
     (fun a b : Str × ℚ => decide (b.2 ≤ a.2)) b a) = true := by
  intro a b
  simp only [Bool.or_eq_true, decide_eq_true_eq]
  exact le_total b.2 a.2

theorem asc_trans : ∀ a b c : Str × ℚ,
    (fun a b : Str × ℚ => decide (a.2 ≤ b.2)) a b →
    (fun a b : Str × ℚ => decide (a.2 ≤ b.2)) b c →
    (fun a b : Str × ℚ => decide (a.2 ≤ b.2)) a c := by
  intro a b c hab hbc
  simp only [decide_eq_true_eq] at hab hbc ⊢
  exact le_trans hab hbc

theorem asc_total : ∀ a b : Str × ℚ,
    ((fun a b : Str × ℚ => decide (a.2 ≤ b.2)) a b ||
     (fun a b : Str × ℚ => decide (a.2 ≤ b.2)) b a) = true := by
  intro a b
  simp only [Bool.or_eq_true, decide_eq_true_eq]
  exact le_total a.2 b.2

theorem rank_gainers_sort_spec (changes : List (Str × ℚ)) :
    ∃ sg : List (Str × ℚ),
      rank_gainers changes = (sg.map (fun e => e.1)).take 10 ∧
      sg.Perm changes ∧
      sg.Pairwise (fun a b => b.2 ≤ a.2) ∧
      (∀ x y : Str × ℚ, x.2 = y.2 → [x, y].Sublist changes → [x, y].Sublist sg) := by
  refine ⟨changes.mergeSort (fun a b => decide (b.2 ≤ a.2)), rfl,
    List.mergeSort_perm _ _, ?_, ?_⟩
  · exact (List.sorted_mergeSort desc_trans desc_total changes).imp
      (fun hab => by simpa using hab)
  · intro x y hxy hsub
    apply List.sublist_mergeSort desc_trans desc_total ?_ hsub
    have : y.2 ≤ x.2 := by rw [hxy]
    simp [List.pairwise_cons, this]

theorem rank_losers_sort_spec (changes : List (Str × ℚ)) :
    ∃ sl : List (Str × ℚ),
      rank_losers changes = (sl.map (fun e => e.1)).take 10 ∧
      sl.Perm changes ∧
      sl.Pairwise (fun a b => a.2 ≤ b.2) ∧
      (∀ x y : Str × ℚ, x.2 = y.2 → [x, y].Sublist changes → [x, y].Sublist sl) := by
  refine ⟨changes.mergeSort (fun a b => decide (a.2 ≤ b.2)), rfl,
    List.mergeSort_perm _ _, ?_, ?_⟩
  · exact (List.sorted_mergeSort asc_trans asc_total changes).imp
      (fun hab => by simpa using hab)
  · intro x y hxy hsub
    apply List.sublist_mergeSort asc_trans asc_total ?_ hsub
    have : x.2 ≤ y.2 := by rw [hxy]
    simp [List.pairwise_cons, this]

/-! ### Key-membership lemmas for the ranking pipeline -/

theorem dictInsert_keys_mem {α : Type} {m : List (Str × α)} {k : Str} {v : α} {s : Str}
    (h : s ∈ (dictInsert m k v).map (fun e => e.1)) :
    s ∈ m.map (fun e => e.1) ∨ s = k := by
  unfold dictInsert at h
  by_cases hmem : m.any (fun e => e.1 == k)
  · rw [if_pos hmem, List.map_map] at h
    obtain ⟨e, he, hs⟩ := List.mem_map.mp h
    by_cases hek : (e.1 == k) = true
    · right
      simp only [Function.comp, hek, if_pos] at hs
      exact hs.symm
    · left
      simp only [Function.comp, hek] at hs
      rw [if_neg (by simp [hek])] at hs
      exact List.mem_map.mpr ⟨e, he, hs⟩
  · rw [if_neg hmem] at h
    rw [List.map_append] at h
    rcases List.mem_append.mp h with h1 | h1
    · exact Or.inl h1
    · exact Or.inr (by simpa using h1)

theorem calcLoop_keys_mem (y : YAxis) :
    ∀ (df : List (Str × List ℚ)) (acc cs : List (Str × ChangeVal)),
    calcLoop y df acc = some cs →
    ∀ s ∈ cs.map (fun e => e.1), s ∈ acc.map (fun e => e.1) ∨ s ∈ df.map (fun e => e.1)
  | [], acc, cs, heq, s, hs => by
    simp only [calcLoop] at heq
    cases heq
    exact Or.inl hs
  | col :: cols, acc, cs, heq, s, hs => by
    cases hc : calculate_change col.2 y with
    | none => rw [calcLoop, hc] at heq; cases heq
    | some c =>
      rw [calcLoop, hc] at heq
      have heq2 : calcLoop y cols (dictInsert acc col.1 c) = some cs := heq
      rcases calcLoop_keys_mem y cols (dictInsert acc col.1 c) cs heq2 s hs with h1 | h1
      · rcases dictInsert_keys_mem h1 with h2 | h2
        · exact Or.inl h2
        · subst h2
          exact Or.inr (by simp)
      · exact Or.inr (by simp [h1])

theorem changesToRat_keys : ∀ {cs : List (Str × ChangeVal)} {fs : List (Str × ℚ)},
    changesToRat cs = some fs → fs.map (fun e => e.1) = cs.map (fun e => e.1)
  | [], fs, heq => by
    simp only [changesToRat] at heq
    cases heq
    rfl
  | (s, .val q) :: rest, fs, heq => by
    simp only [changesToRat] at heq
    cases hr : changesToRat rest with
    | none => rw [hr] at heq; cases heq
    | some r =>
      rw [hr] at heq
      simp only [Option.map_some'] at heq
      cases heq
      simp [changesToRat_keys hr]
  | (s, .nonfinite) :: rest, fs, heq => by
    simp only [changesToRat] at heq
    cases heq

theorem rank_gainers_mem {changes : List (Str × ℚ)} {s : Str}
    (h : s ∈ rank_gainers changes) : s ∈ changes.map (fun e => e.1) := by
  unfold rank_gainers at h
  obtain ⟨e, he, rfl⟩ := List.mem_map.mp (List.mem_of_mem_take h)
  exact List.mem_map.mpr ⟨e, List.mem_mergeSort.mp he, rfl⟩

theorem rank_losers_mem {changes : List (Str × ℚ)} {s : Str}
    (h : s ∈ rank_losers changes) : s ∈ changes.map (fun e => e.1) := by
  unfold rank_losers at h
  obtain ⟨e, he, rfl⟩ := List.mem_map.mp (List.mem_of_mem_take h)
  exact List.mem_map.mpr ⟨e, List.mem_mergeSort.mp he, rfl⟩

theorem top_gainers_mem (df : List (Str × List ℚ)) (y : YAxis) (r : List Str)
    (heq : top_gainers df y = some r) : ∀ s ∈ r, s ∈ df.map (fun e => e.1) := by
  unfold top_gainers at heq
  cases hcs : calculate_changes df y with
  | none =>
    simp only [hcs, Option.bind_eq_bind, Option.none_bind] at heq
    cases heq
  | some cs =>
    cases hfs : changesToRat cs with
    | none =>
      simp only [hcs, hfs, Option.bind_eq_bind, Option.some_bind, Option.none_bind] at heq
      cases heq
    | some fs =>
      simp only [hcs, hfs, Option.bind_eq_bind, Option.some_bind, Option.pure_def] at heq
      have hr : r = rank_gainers fs := (Option.some.inj heq).symm
      subst hr
      intro s hs
      have h1 := rank_gainers_mem hs
      rw [changesToRat_keys hfs] at h1
      rcases calcLoop_keys_mem y df [] cs hcs s h1 with h2 | h2
      · simp at h2
      · exact h2

theorem top_losers_mem (df : List (Str × List ℚ)) (y : YAxis) (r : List Str)
    (heq : top_losers df y = some r) : ∀ s ∈ r, s ∈ df.map (fun e => e.1) := by
  unfold top_losers at heq
  cases hcs : calculate_changes df y with
  | none =>
    simp only [hcs, Option.bind_eq_bind, Option.none_bind] at heq
    cases heq
  | some cs =>
    cases hfs : changesToRat cs with
    | none =>
      simp only [hcs, hfs, Option.bind_eq_bind, Option.some_bind, Option.none_bind] at heq
      cases heq
    | some fs =>
      simp only [hcs, hfs, Option.bind_eq_bind, Option.some_bind, Option.pure_def] at heq
      have hr : r = rank_losers fs := (Option.some.inj heq).symm
      subst hr
      intro s hs
      have h1 := rank_losers_mem hs
      rw [changesToRat_keys hfs] at h1
      rcases calcLoop_keys_mem y df [] cs hcs s h1 with h2 | h2
      · simp at h2
      · exact h2

/-! ### Corrupt-line propagation lemma -/

theorem loadLines_none : ∀ (ls : List Str) (acc : List (Str × Str)),
    (∃ l ∈ ls, parseLine l = none) → loadLines ls acc = none
  | [], acc, h => by simp at h
  | l :: ls, acc, h => by
    cases hp : parseLine l with
    | none => rw [loadLines, hp]
    | some kv =>
      rw [loadLines, hp]
      show loadLines ls (dictInsert acc kv.1 kv.2) = none
      obtain ⟨x, hx, hpx⟩ := h
      rcases List.mem_cons.mp hx with rfl | h2
      · rw [hp] at hpx; cases hpx
      · exact loadLines_none ls _ ⟨x, h2, hpx⟩

/-! ### Concrete fixtures -/

def strA : Str := ['A']

def strB : Str := ['B']

def strAAPL : Str := ['A', 'A', 'P', 'L']

def strXOM : Str := ['X', 'O', 'M']

/-! ### C1: ranking by the change metric of the active mode -/

def dfModes : List (Str × List ℚ) := [(strA, [1, 2]), (strB, [100, 150])]

/-- C1 counterexample: with series A: 1→2 (percent change 100, dollar
change 1) and B: 100→150 (percent change 50, dollar change 50), the
Dollar-mode top-gainers list is [B, A] while the percent changes order the
symbols [A, B]; the ranking therefore does not sort by `percentChange`
regardless of the active value mode — in Dollar mode it sorts by the dollar
change. -/
theorem rank_percent_mode_independent_false :
    calculate_changes dfModes .percent = some [(strA, .val 100), (strB, .val 50)] ∧
    top_gainers dfModes .dollar = some [strB, strA] ∧
    top_gainers dfModes .percent = some [strA, strB] := by
  have hd : calculate_changes dfModes .dollar = some [(strA, .val 1), (strB, .val 50)] := by
    norm_num [calculate_changes, calcLoop, calculate_change, dictInsert, dfModes, strA, strB]
    decide
  have hp : calculate_changes dfModes .percent = some [(strA, .val 100), (strB, .val 50)] := by
    norm_num [calculate_changes, calcLoop, calculate_change, dictInsert, dfModes, strA, strB]
    decide
  have hrd : changesToRat [(strA, .val 1), (strB, .val 50)] = some [(strA, 1), (strB, 50)] := by
    decide
  have hrp : changesToRat [(strA, .val 100), (strB, .val 50)] =
      some [(strA, 100), (strB, 50)] := by decide
  refine ⟨hp, ?_, ?_⟩
  · simp only [top_gainers, hd, hrd, Option.bind_eq_bind, Option.some_bind, Option.pure_def]
    norm_num [rank_gainers, List.mergeSort, List.splitInTwo, List.merge]
  · simp only [top_gainers, hp, hrp, Option.bind_eq_bind, Option.some_bind, Option.pure_def]
    norm_num [rank_gainers, List.mergeSort, List.splitInTwo, List.merge]

/-- C1 (amended): `rank_gainers` stably sorts the changes mapping produced
under the *active* Y-axis mode (dollar change in Dollar mode, percent change
in Percent mode) descending by that value — a stable sort, so tied symbols
keep their insertion order — and takes the first 10 (the limit is
hard-coded to 10); `rank_losers` does the same ascending; and in either
mode every ranked symbol is one of the symbols of the frame. -/
theorem rank_gainers_losers_spec (changes : List (Str × ℚ)) :
    (∃ sg : List (Str × ℚ),
      rank_gainers changes = (sg.map (fun e => e.1)).take 10 ∧
      sg.Perm changes ∧ sg.Pairwise (fun a b => b.2 ≤ a.2) ∧
      (∀ x y : Str × ℚ, x.2 = y.2 → [x, y].Sublist changes → [x, y].Sublist sg)) ∧
    (∃ sl : List (Str × ℚ),
      rank_losers changes = (sl.map (fun e => e.1)).take 10 ∧
      sl.Perm changes ∧ sl.Pairwise (fun a b => a.2 ≤ b.2) ∧
      (∀ x y : Str × ℚ, x.2 = y.2 → [x, y].Sublist changes → [x, y].Sublist sl)) ∧
    (∀ (df : List (Str × List ℚ)) (y : YAxis) (r : List Str),
      top_gainers df y = some r → ∀ s ∈ r, s ∈ df.map (fun e => e.1)) ∧
    (∀ (df : List (Str × List ℚ)) (y : YAxis) (r : List Str),
      top_losers df y = some r → ∀ s ∈ r, s ∈ df.map (fun e => e.1)) :=
  ⟨rank_gainers_sort_spec changes, rank_losers_sort_spec changes,
    top_gainers_mem, top_losers_mem⟩

def tieChanges : List (Str × ℚ) := [(strA, 2), (strB, 2)]

/-- C1 witness: on a two-symbol tie the stable descending sort keeps the
insertion order, so the gainers come out [A, B]. -/
theorem rank_gainers_losers_spec_instance : rank_gainers tieChanges = [strA, strB] := by
  obtain ⟨⟨sg, heq, hperm, _hsort, hstable⟩, _⟩ := rank_gainers_losers_spec tieChanges
  have hsub : [(strA, (2 : ℚ)), (strB, 2)].Sublist sg :=
    hstable (strA, 2) (strB, 2) rfl (List.Sublist.refl _)
  have hlen : sg.length = 2 := hperm.length_eq
  have hsg : sg = [(strA, (2 : ℚ)), (strB, 2)] := (hsub.eq_of_length (by simp [hlen])).symm
  rw [heq, hsg]
  rfl

/-! ### C2: failure policy of the metric computation -/

def exFetch : Str → Option (List ℚ) := fun s => if s = strAAPL then some [100, 110] else none

/-- C2 counterexample: with a data source that serves AAPL but raises for
XOM, the whole `get_timeframe_data` loop raises — the good symbol AAPL is
not ranked and no warning path exists, contradicting per-symbol exclusion;
and a zero start price is not excluded either: the symbol stays in the
changes mapping with the non-finite percent value. -/
theorem partial_failure_tolerance_false :
    exFetch strAAPL = some [100, 110] ∧
    exFetch strXOM = none ∧
    get_timeframe_data exFetch [strAAPL, strXOM] = none ∧
    calculate_changes [(strAAPL, [0, 5])] .percent = some [(strAAPL, .nonfinite)] := by
  decide

/-- C2 (amended): there is no partial-failure tolerance: the fetch loop
produces a frame exactly when the fetch of every requested symbol succeeds
(one
raised fetch aborts the whole batch); a zero start price yields the
non-finite percent value for that symbol rather than excluding it; and
whenever `calculate_changes` succeeds it keeps every column — no symbol is
ever excluded from the changes mapping. -/
theorem batch_failure_policy :
    (∀ (fetch : Str → Option (List ℚ)) (symbols : List Str),
      (get_timeframe_data fetch symbols).isSome ↔ ∀ s ∈ symbols, (fetch s).isSome) ∧
    (∀ ps : List ℚ, ps.head? = some 0 → calculate_change ps .percent = some .nonfinite) ∧
    (∀ (df : List (Str × List ℚ)) (y : YAxis) (cs : List (Str × ChangeVal)),
      (df.map (fun e => e.1)).Nodup → calculate_changes df y = some cs →
      cs.map (fun e => e.1) = df.map (fun e => e.1)) := by
  refine ⟨fun fetch symbols => fetchLoop_isSome fetch symbols [], ?_, ?_⟩
  · intro ps hps
    cases hl : ps.getLast? with
    | none =>
      rw [List.getLast?_eq_none_iff] at hl
      rw [hl] at hps
      cases hps
    | some e =>
      unfold calculate_change
      rw [hps, hl]
      simp
  · intro df y cs hn heq
    simpa using calcLoop_keys y df [] cs (by simp) hn heq

/-- C2 witness: the batch with only the healthy symbol succeeds, and the
zero-start series gets the non-finite percent value. -/
theorem batch_failure_policy_instance :
    (get_timeframe_data exFetch [strAAPL]).isSome = true ∧
    calculate_change [0, 5] .percent = some .nonfinite :=
  ⟨(batch_failure_policy.1 exFetch [strAAPL]).mpr (by decide),
    batch_failure_policy.2.1 [0, 5] rfl⟩

/-! ### C3: persist-after-load round trip -/

def commaNameContent : Str := "AAPL,Apple, Inc.\n".toList

/-- C3 counterexample: a stored file whose display name contains a comma —
which `save_tracked_stocks` itself can produce, since names are written
unescaped — loads as just the first two fields, so persisting the loaded
store writes a single line different from the original single line: the
contents are not byte-for-byte equivalent under any reordering of entries. -/
theorem persist_load_byte_roundtrip_false :
    load_content commaNameContent = some [(strAAPL, "Apple".toList)] ∧
    save_tracked_stocks [(strAAPL, "Apple".toList)] = "AAPL,Apple\n".toList ∧
    fileLines commaNameContent = ["AAPL,Apple, Inc.".toList] ∧
    fileLines ("AAPL,Apple\n".toList) = ["AAPL,Apple".toList] ∧
    "AAPL,Apple".toList ∉ fileLines commaNameContent := by
  decide

/-- C3 (amended): for a well-formed store file — a sequence of
`symbol,name\n` records whose fields contain no comma and no newline, whose
lines are unchanged by `strip`, and whose symbols are distinct — loading
and re-persisting reproduces the stored content byte for byte (in the
original order). -/
theorem persist_load_roundtrip (content : Str) (entries : List (Str × Str))
    (hcontent : content = save_tracked_stocks entries)
    (hkeys : (entries.map (fun e => e.1)).Nodup)
    (hfree : ∀ e ∈ entries, COMMA ∉ e.1 ∧ COMMA ∉ e.2 ∧ NL ∉ e.1 ∧ NL ∉ e.2)
    (hstrip : ∀ e ∈ entries, strip (e.1 ++ COMMA :: e.2) = e.1 ++ COMMA :: e.2) :
    load_content content = some entries ∧ save_tracked_stocks entries = content := by
  subst hcontent
  exact ⟨load_save entries hkeys hfree hstrip, rfl⟩

def exEntries : List (Str × Str) :=
  [(strAAPL, "Apple Inc.".toList), (strXOM, "Exxon Mobil".toList)]

/-- C3 witness: the two-entry store file round-trips unchanged. -/
theorem persist_load_roundtrip_instance :
    load_content (save_tracked_stocks exEntries) = some exEntries ∧
    save_tracked_stocks exEntries = save_tracked_stocks exEntries :=
  persist_load_roundtrip (save_tracked_stocks exEntries) exEntries rfl (by decide) (by decide)
    (by decide)

/-! ### C4: load on missing or corrupt storage -/

def corruptContent : Str := "garbage\n".toList

/-- C4 counterexample: on a stored line without a comma the load raises
(`IndexError` from indexing the second field) instead of logging and
falling back to the empty mapping. -/
theorem load_corrupt_fallback_false :
    load_tracked_stocks (some corruptContent) = none ∧
    load_tracked_stocks (some corruptContent) ≠ some [] := by
  decide

/-- C4 (amended): `load_tracked_stocks` returns the empty mapping when no
persisted file exists; but a corrupt line — any stored line that does not
parse as `symbol,name` — makes the whole load raise rather than fall back
to the empty mapping. -/
theorem load_missing_and_corrupt (content line : Str) (hmem : line ∈ fileLines content)
    (hbad : parseLine line = none) :
    load_tracked_stocks none = some [] ∧ load_content content = none :=
  ⟨rfl, loadLines_none (fileLines content) [] ⟨line, hmem, hbad⟩⟩

/-- C4 witness: the missing-file branch and the corrupt one-line file. -/
theorem load_missing_and_corrupt_instance :
    load_tracked_stocks none = some [] ∧ load_content corruptContent = none :=
  load_missing_and_corrupt corruptContent ("garbage".toList) (by decide) (by decide)

/-! ### C5: the two change formulas -/

/-- C5: on a non-empty series, Dollar mode yields exactly
`endPrice - startPrice`; Percent mode yields exactly
`(endPrice - startPrice) / startPrice * 100` when the start price is
nonzero, and the undefined (non-finite) value when the start price is
zero. -/
theorem computeMetric_formulas (ps : List ℚ) (s e : ℚ)
    (hs : ps.head? = some s) (he : ps.getLast? = some e) :
    calculate_change ps .dollar = some (.val (e - s)) ∧
    (s ≠ 0 → calculate_change ps .percent = some (.val ((e - s) / s * 100))) ∧
    (s = 0 → calculate_change ps .percent = some .nonfinite) := by
  refine ⟨?_, ?_, ?_⟩
  · unfold calculate_change
    rw [hs, he]
  · intro h0
    unfold calculate_change
    rw [hs, he]
    simp [h0]
  · intro h0
    unfold calculate_change
    rw [hs, he]
    simp [h0]

/-- C5 witness: the series 100 → 110 has dollar change 10 and percent
change 10. -/
theorem computeMetric_formulas_instance :
    (100 : ℚ) ≠ 0 ∧
    calculate_change [100, 110] .dollar = some (.val 10) ∧
    calculate_change [100, 110] .percent = some (.val 10) := by
  obtain ⟨h1, h2, _h3⟩ := computeMetric_formulas [100, 110] 100 110 rfl rfl
  refine ⟨by norm_num, ?_, ?_⟩
  · rw [h1]
    norm_num
  · rw [h2 (by norm_num)]
    norm_num

/-! ### C6: the manual-selection partition -/

/-- C6: for a selection whose symbols all have computed metrics,
`partition_manual` returns exactly the selection filtered on metric `> 0`
(gainers) and on metric `≤ 0` (losers, zero included); each partition
preserves the selection order (it is a sublist of the selection), and
every selected symbol lands in exactly one of the two lists. -/
theorem partitionManual_spec (selected : List Str) (changes : List (Str × ℚ))
    (h : ∀ s ∈ selected, (dictGet changes s).isSome) :
    partition_manual selected changes =
      some (selected.filter (fun s => (dictGet changes s).any (fun q => decide (0 < q))),
            selected.filter (fun s => (dictGet changes s).any (fun q => decide (q ≤ 0)))) ∧
    (selected.filter (fun s => (dictGet changes s).any (fun q => decide (0 < q)))).Sublist
      selected ∧
    (selected.filter (fun s => (dictGet changes s).any (fun q => decide (q ≤ 0)))).Sublist
      selected ∧
    (∀ s ∈ selected,
      (s ∈ selected.filter (fun s => (dictGet changes s).any (fun q => decide (0 < q))) ∧
       s ∉ selected.filter (fun s => (dictGet changes s).any (fun q => decide (q ≤ 0)))) ∨
      (s ∉ selected.filter (fun s => (dictGet changes s).any (fun q => decide (0 < q))) ∧
       s ∈ selected.filter (fun s => (dictGet changes s).any (fun q => decide (q ≤ 0))))) := by
  refine ⟨?_, List.filter_sublist _, List.filter_sublist _, ?_⟩
  · unfold partition_manual
    rw [filterSelected_eq changes _ selected h, filterSelected_eq changes _ selected h]
    rfl
  · intro s hs
    obtain ⟨q, hq⟩ := Option.isSome_iff_exists.mp (h s hs)
    by_cases h0 : 0 < q
    · left
      constructor
      · exact List.mem_filter.mpr ⟨hs, by simp [hq, h0]⟩
      · intro hmem
        have hle : q ≤ 0 := by
          have h2 := (List.mem_filter.mp hmem).2
          rw [hq] at h2
          simpa using h2
        exact absurd hle (not_le.mpr h0)
    · right
      have hle : q ≤ 0 := not_lt.mp h0
      constructor
      · intro hmem
        have hlt : 0 < q := by
          have h2 := (List.mem_filter.mp hmem).2
          rw [hq] at h2
          simpa using h2
        exact absurd hlt h0
      · exact List.mem_filter.mpr ⟨hs, by simp [hq, hle]⟩

def exSelection : List Str := [strA, strB]

def exManualChanges : List (Str × ℚ) := [(strA, 5), (strB, -3)]

/-- C6 witness: A (+5) goes to gainers, B (−3) to losers. -/
theorem partitionManual_spec_instance :
    partition_manual exSelection exManualChanges = some ([strA], [strB]) := by
  have h := (partitionManual_spec exSelection exManualChanges (by decide)).1
  exact h.trans (by decide)

/-! ### C7: single-point series -/

/-- C7 counterexample: a single-point series whose only price is zero gets
the undefined non-finite percent value, not 0. -/
theorem single_point_zero_price_false :
    calculate_change [0] .percent = some .nonfinite ∧
    calculate_change [0] .percent ≠ some (.val 0) := by
  decide

/-- C7 (amended): a single-point series yields dollar change 0, and percent
change 0 provided its price is nonzero (a zero price falls under the
undefined/division-by-zero case instead). -/
theorem single_point_metric (p : ℚ) :
    calculate_change [p] .dollar = some (.val 0) ∧
    (p ≠ 0 → calculate_change [p] .percent = some (.val 0)) := by
  constructor
  · unfold calculate_change
    simp
  · intro h0
    unfold calculate_change
    simp [h0]

/-- C7 witness: the single-point series [5]. -/
theorem single_point_metric_instance :
    (5 : ℚ) ≠ 0 ∧
    calculate_change [5] .dollar = some (.val 0) ∧
    calculate_change [5] .percent = some (.val 0) :=
  ⟨by norm_num, (single_point_metric 5).1, (single_point_metric 5).2 (by norm_num)⟩

/-! ### C8: remove with confirmation -/

/-- C8: for a tracked symbol with a well-formed store (symbols comma-free,
fields newline-free, record lines unchanged by `strip`), clicking Remove
and then confirming deletes the symbol: the new session state has the
symbol absent from the mapping, the confirmation flag back to idle
(`false`), the file rewritten to exactly the remaining records, and no
record of the persisted output parses to the removed symbol. -/
theorem remove_confirm_spec (st : AppState) (s : Str)
    (htracked : st.tech_stocks.any (fun e => e.1 == s) = true)
    (hfree : ∀ e ∈ st.tech_stocks, COMMA ∉ e.1 ∧ NL ∉ e.1 ∧ NL ∉ e.2)
    (hstrip : ∀ e ∈ st.tech_stocks, strip (e.1 ++ COMMA :: e.2) = e.1 ++ COMMA :: e.2) :
    confirm_removal (request_removal st s) =
      some { st with
        tech_stocks := dictErase st.tech_stocks s
        remove_symbol := some s
        show_confirmation := false
        persisted := some (save_tracked_stocks (dictErase st.tech_stocks s)) } ∧
    (∀ e ∈ dictErase st.tech_stocks s, e.1 ≠ s) ∧
    (∀ line ∈ fileLines (save_tracked_stocks (dictErase st.tech_stocks s)),
      ∀ kv : Str × Str, parseLine line = some kv → kv.1 ≠ s) := by
  have herased : ∀ e ∈ dictErase st.tech_stocks s, e.1 ≠ s := by
    intro e he
    have h2 := (List.mem_filter.mp he).2
    simpa using h2
  have hsub : ∀ e ∈ dictErase st.tech_stocks s, e ∈ st.tech_stocks := by
    intro e he
    exact (List.mem_filter.mp he).1
  refine ⟨?_, herased, ?_⟩
  · simp [request_removal, confirm_removal, htracked]
  · intro line hline kv hkv
    rw [save_eq_encode] at hline
    rw [fileLines_encodeLines (by
      intro l hl
      obtain ⟨e, he, rfl⟩ := List.mem_map.mp hl
      exact record_line_NL_free (hfree e (hsub e he)).2.1 (hfree e (hsub e he)).2.2)] at hline
    obtain ⟨e, he, rfl⟩ := List.mem_map.mp hline
    obtain ⟨w, hw⟩ := parseLine_key (hfree e (hsub e he)).1 (hstrip e (hsub e he))
    rw [hw] at hkv
    cases hkv
    exact herased e he

def exStore : AppState :=
  ⟨[(strAAPL, "Apple Inc.".toList), (strXOM, "Exxon Mobil".toList)], none, false, none⟩

/-- C8 witness: removing AAPL from the two-symbol store. -/
theorem remove_confirm_spec_instance :
    confirm_removal (request_removal exStore strAAPL) =
      some { exStore with
        tech_stocks := dictErase exStore.tech_stocks strAAPL
        remove_symbol := some strAAPL
        show_confirmation := false
        persisted := some (save_tracked_stocks (dictErase exStore.tech_stocks strAAPL)) } :=
  (remove_confirm_spec exStore strAAPL (by decide) (by decide) (by decide)).1

/-! ### C9: the add-stock flow -/

def exInfo : Str → Option Str := fun _ => some ("Apple Inc.".toList)

def emptyStore : AppState := ⟨[], none, false, none⟩

/-- C9 counterexample: when the metadata lookup succeeds but the storage
write raises, the handler does surface a failure message — but the state
*is* mutated, on both sides: the in-memory mapping already holds the new
entry, and the file — truncated by the open before the failure — is left
empty, where before the add no file existed at all. -/
theorem add_storage_error_no_mutation_false :
    (add_stock emptyStore "aapl".toList exInfo (.failAfter 0)).2 = .failed ∧
    (add_stock emptyStore "aapl".toList exInfo (.failAfter 0)).1.tech_stocks =
      [(strAAPL, "Apple Inc.".toList)] ∧
    emptyStore.tech_stocks = [] ∧
    (add_stock emptyStore "aapl".toList exInfo (.failAfter 0)).1.persisted = some [] ∧
    emptyStore.persisted = none := by
  decide

/-- C9 (amended): the handler uppercases the entered symbol; a duplicate
(after uppercasing) is rejected with a message and neither the mapping nor
the persisted file changes; a failed metadata lookup likewise leaves the
state unchanged; on success the uppercased symbol is inserted with its
display name and the whole mapping is persisted.  But when the storage
write fails, only a message is shown and the two views can diverge: the
in-memory mapping retains the inserted entry, while the file — rewritten
in place in truncating mode, with no temporary file and atomic replace —
keeps its previous content only if the open itself raised, and otherwise
is left holding a mere prefix (possibly empty) of the new content. -/
theorem add_stock_spec (st : AppState) (ns : Str) (info : Str → Option Str) :
    (ns ≠ [] → st.tech_stocks.any (fun e => e.1 == toUpper ns) = true →
      ∀ w, add_stock st ns info w = (st, .duplicate)) ∧
    (ns ≠ [] → st.tech_stocks.any (fun e => e.1 == toUpper ns) = false →
      info (toUpper ns) = none → ∀ w, add_stock st ns info w = (st, .failed)) ∧
    (∀ name, ns ≠ [] → st.tech_stocks.any (fun e => e.1 == toUpper ns) = false →
      info (toUpper ns) = some name →
      add_stock st ns info .ok =
        ({ st with
            tech_stocks := dictInsert st.tech_stocks (toUpper ns) name
            persisted :=
              some (save_tracked_stocks (dictInsert st.tech_stocks (toUpper ns) name)) },
          .added)) ∧
    (∀ name, ns ≠ [] → st.tech_stocks.any (fun e => e.1 == toUpper ns) = false →
      info (toUpper ns) = some name →
      add_stock st ns info .failBeforeOpen =
        ({ st with tech_stocks := dictInsert st.tech_stocks (toUpper ns) name }, .failed)) ∧
    (∀ name n, ns ≠ [] → st.tech_stocks.any (fun e => e.1 == toUpper ns) = false →
      info (toUpper ns) = some name →
      add_stock st ns info (.failAfter n) =
        ({ st with
            tech_stocks := dictInsert st.tech_stocks (toUpper ns) name
            persisted :=
              some ((save_tracked_stocks
                (dictInsert st.tech_stocks (toUpper ns) name)).take n) },
          .failed)) := by
  refine ⟨?_, ?_, ?_, ?_, ?_⟩
  · intro hne hdup w
    simp [add_stock, hne, hdup]
  · intro hne hdup hinfo w
    simp [add_stock, hne, hdup, hinfo]
  · intro name hne hdup hinfo
    simp [add_stock, writeEffect, hne, hdup, hinfo]
  · intro name hne hdup hinfo
    simp [add_stock, writeEffect, hne, hdup, hinfo]
  · intro name n hne hdup hinfo
    simp [add_stock, writeEffect, hne, hdup, hinfo]

def dupStore : AppState := ⟨[(strAAPL, "Apple Inc.".toList)], none, false, none⟩

/-- C9 witness: adding `aapl` while AAPL is tracked is rejected as a
duplicate with the state unchanged. -/
theorem add_stock_spec_instance :
    add_stock dupStore "aapl".toList exInfo .ok = (dupStore, .duplicate) :=
  (add_stock_spec dupStore "aapl".toList exInfo).1 (by decide) (by decide) .ok

/-! ### C10: load after save -/

def wsSymbol : Str := [' ', 'A']

def wsName : Str := ['X']

/-- C10 counterexample: a symbol with a leading blank contains no comma and
no newline, yet `strip()` removes the blank on load, so load-after-save is
not the identity. -/
theorem save_load_identity_false :
    COMMA ∉ wsSymbol ∧ NL ∉ wsSymbol ∧ COMMA ∉ wsName ∧ NL ∉ wsName ∧
    load_tracked_stocks (some (save_tracked_stocks [(wsSymbol, wsName)])) =
      some [(['A'], wsName)] ∧
    load_tracked_stocks (some (save_tracked_stocks [(wsSymbol, wsName)])) ≠
      some [(wsSymbol, wsName)] := by
  decide

/-- C10 (amended): for a mapping with distinct symbols whose symbols and
names contain no comma and no newline, and additionally whose symbols do
not start — and names do not end — with whitespace (otherwise `strip()`
alters the fields on load), loading the saved file returns exactly the
original mapping in its insertion order. -/
theorem save_load_identity (m : List (Str × Str))
    (hkeys : (m.map (fun e => e.1)).Nodup)
    (hfree : ∀ e ∈ m, COMMA ∉ e.1 ∧ COMMA ∉ e.2 ∧ NL ∉ e.1 ∧ NL ∉ e.2)
    (hws : ∀ e ∈ m,
      (∀ c ∈ e.1.head?, isSpc c = false) ∧ (∀ c ∈ e.2.getLast?, isSpc c = false)) :
    load_tracked_stocks (some (save_tracked_stocks m)) = some m := by
  show load_content (save_tracked_stocks m) = some m
  exact load_save m hkeys hfree (fun e he => strip_record (hws e he).1 (hws e he).2)

def exStore10 : List (Str × Str) := [("MSFT".toList, "Microsoft Corporation".toList)]

/-- C10 witness: a one-entry store round-trips through save and load. -/
theorem save_load_identity_instance :
    load_tracked_stocks (some (save_tracked_stocks exStore10)) = some exStore10 :=
  save_load_identity exStore10 (by decide) (by decide) (by decide)

end StockDash
